import Mathlib

/-!
# x402check — verification of the validation core

Shallow embedding of the x402check validation core: the vendored Base58
decoder, the Keccak-256 sponge, the EIP-55 checksum encoders and the
`validate()` orchestrator.  Strings from the JavaScript/TypeScript source
are embedded as lists of character codes (`List Nat`), byte arrays as
lists of `Nat` values below 256.
-/

/-- Character codes of the Base58 alphabet
`123456789ABCDEFGHJKLMNPQRSTUVWXYZabcdefghijkmnopqrstuvwxyz`
(the `ALPHABET` constant of the vendored decoder). -/
def B58ALPHA : List Nat :=
  [49, 50, 51, 52, 53, 54, 55, 56, 57,
   65, 66, 67, 68, 69, 70, 71, 72, 74, 75, 76, 77, 78, 80, 81, 82, 83, 84,
   85, 86, 87, 88, 89, 90,
   97, 98, 99, 100, 101, 102, 103, 104, 105, 106, 107, 109, 110, 111, 112,
   113, 114, 115, 116, 117, 118, 119, 120, 121, 122]

/-- The reverse lookup table `map` of `base58Decode`: the table is filled
with 255 and `map[ALPHABET.charCodeAt(i)] = i`; looking up a character code
returns its alphabet index, or 255 when the character is not in the
alphabet. -/
def b58map (c : Nat) : Nat :=
  let i := B58ALPHA.indexOf c
  if i < 58 then i else 255

/-- One multiply–add step of the base-58 → base-256 conversion, on a
little-endian digit list: `carry += 58 * b[j]; b[j] = carry % 256;
carry = carry / 256`, with any carry left after the last cell discarded
(the buffer is sized so that this never loses information). -/
def muladdLE (c : Nat) : List Nat → List Nat
  | [] => []
  | b :: bs => (c + 58 * b) % 256 :: muladdLE ((c + 58 * b) / 256) bs

/-- The inner `for j = size-1 .. 0` loop of `base58Decode`, acting on the
big-endian buffer `b256`. -/
def muladdBE (c : Nat) (buf : List Nat) : List Nat :=
  (muladdLE c buf.reverse).reverse

/-- Count how many copies of `v` the list starts with. -/
def countLeading (v : Nat) : List Nat → Nat
  | [] => 0
  | c :: cs => if c = v then countLeading v cs + 1 else 0

/-- The main character loop of `base58Decode`: for each character after
the leading `'1'`s, check membership in the alphabet (`ch >= 128 ||
map[ch] === 255` throws) and fold the digit into the buffer. `none`
models the thrown `Invalid base58 character` error. -/
def decodeLoop : List Nat → List Nat → Option (List Nat)
  | [], buf => some buf
  | c :: cs, buf =>
    if 128 ≤ c ∨ b58map c = 255 then none
    else decodeLoop cs (muladdBE (b58map c) buf)

/-- `base58Decode` from `src/vendor/base58.ts` (src/unnamed/part_004,
lines 347–380): count the leading `'1'` characters (code 49), run the
iterative base conversion into a buffer of
`Math.ceil(len * 733 / 1000) + 1` bytes, strip the buffer's own leading
zero bytes, and prepend one zero byte per leading `'1'`.  `none` models
the thrown `Invalid base58 character` error. -/
def base58Decode (s : List Nat) : Option (List Nat) :=
  let zeros := countLeading 49 s
  let size := (s.length * 733 + 999) / 1000 + 1
  match decodeLoop (s.drop zeros) (List.replicate size 0) with
  | none => none
  | some buf => some (List.replicate zeros 0 ++ buf.drop (countLeading 0 buf))


/-! ## Keccak-256 (spec-modelled)

The vendored `keccak256` itself is not part of the sources here (only its
extraction plan and callers are), so it is modelled from the spec. -/

/-- Modelled from the spec: §4.2 — rotate a 64-bit lane left by `n` bits
(`0 ≤ n < 64`). -/
def rotl64 (x n : Nat) : Nat :=
  ((x <<< n) ||| (x >>> (64 - n))) % (2 ^ 64)

/-- Modelled from the spec: §4.2 — the 24 iota round constants of
Keccak-f[1600]. -/
def keccakRC : List Nat :=
  [0x0000000000000001, 0x0000000000008082, 0x800000000000808a,
   0x8000000080008000, 0x000000000000808b, 0x0000000080000001,
   0x8000000080008081, 0x8000000000008009, 0x000000000000008a,
   0x0000000000000088, 0x0000000080008009, 0x000000008000000a,
   0x000000008000808b, 0x800000000000008b, 0x8000000000008089,
   0x8000000000008003, 0x8000000000008002, 0x8000000000000080,
   0x000000000000800a, 0x800000008000000a, 0x8000000080008081,
   0x8000000000008080, 0x0000000080000001, 0x8000000080008008]

/-- Modelled from the spec: §4.2 — the rho rotation offsets, indexed by
`x + 5 * y`. -/
def rhoOff : List Nat :=
  [0, 1, 62, 28, 27] ++
    [36, 44, 6, 55, 20] ++
    [3, 10, 43, 25, 39] ++
    [41, 45, 15, 21, 8] ++
    [18, 2, 61, 56, 14]

/-- Modelled from the spec: §4.2 — one round of Keccak-f[1600]
(theta, rho, pi, chi, iota) on a state of 25 lanes indexed by
`x + 5 * y`. -/
def keccakRound (st : List Nat) (rc : Nat) : List Nat :=
  let C := (List.range 5).map fun x =>
    st.getD x 0 ^^^ st.getD (x + 5) 0 ^^^ st.getD (x + 10) 0 ^^^
      st.getD (x + 15) 0 ^^^ st.getD (x + 20) 0
  let D := (List.range 5).map fun x =>
    C.getD ((x + 4) % 5) 0 ^^^ rotl64 (C.getD ((x + 1) % 5) 0) 1
  let A := (List.range 25).map fun i => st.getD i 0 ^^^ D.getD (i % 5) 0
  let B := (List.range 25).map fun j =>
    let y := j % 5
    let x := (3 * (j / 5 + 2 * (j % 5))) % 5
    rotl64 (A.getD (x + 5 * y) 0) (rhoOff.getD (x + 5 * y) 0)
  let E := (List.range 25).map fun j =>
    let x := j % 5
    let y := j / 5
    B.getD j 0 ^^^
      ((0xffffffffffffffff ^^^ B.getD ((x + 1) % 5 + 5 * y) 0) &&&
        B.getD ((x + 2) % 5 + 5 * y) 0)
  (List.range 25).map fun j =>
    if j = 0 then E.getD 0 0 ^^^ rc else E.getD j 0

/-- Modelled from the spec: §4.2 — the full 24-round Keccak-f[1600]
permutation. -/
def keccakF (st : List Nat) : List Nat :=
  keccakRC.foldl keccakRound st

/-- Modelled from the spec: §4.2 — original Keccak padding (`0x01`,
zeros, MSB-set terminal byte `0x80`, sharing a single `0x81` byte when
only one padding byte fits), to a multiple of the 136-byte rate. -/
def keccakPad (msg : List Nat) : List Nat :=
  let padLen := 136 - msg.length % 136
  if padLen = 1 then msg ++ [0x81]
  else msg ++ 0x01 :: List.replicate (padLen - 2) 0 ++ [0x80]

/-- Split a padded message into 136-byte blocks (fuel-based so that the
definition reduces in the kernel). -/
def chunks136 : Nat → List Nat → List (List Nat)
  | 0, _ => []
  | _ + 1, [] => []
  | fuel + 1, l => l.take 136 :: chunks136 fuel (l.drop 136)

/-- Modelled from the spec: §4.2 — absorb one 136-byte block: xor the
block into the first 17 lanes (8 bytes per lane, little-endian) and apply
the permutation. -/
def absorbBlock (st : List Nat) (block : List Nat) : List Nat :=
  keccakF ((List.range 25).map fun i =>
    if i < 17 then
      st.getD i 0 ^^^
        ((List.range 8).foldl
          (fun acc k => acc + block.getD (8 * i + k) 0 <<< (8 * k)) 0)
    else st.getD i 0)

/-- Modelled from the spec: §4.2 — the Keccak-256 sponge: pre-NIST
Keccak padding, rate 136 bytes, 24-round permutation, squeeze 32 bytes
(little-endian lanes).  Input and output are byte lists. -/
def keccak256 (msg : List Nat) : List Nat :=
  let padded := keccakPad msg
  let st := (chunks136 padded.length padded).foldl absorbBlock
    (List.replicate 25 0)
  (List.range 32).map fun i => (st.getD (i / 8) 0 >>> (8 * (i % 8))) % 256

/-- The canonical Keccak-256 digest of the empty byte sequence. -/
def keccakEmptyCanary : List Nat :=
  [0xc5, 0xd2, 0x46, 0x01, 0x86, 0xf7, 0x23, 0x3c,
   0x92, 0x7e, 0x7d, 0xb2, 0xdc, 0xc7, 0x03, 0xc0,
   0xe5, 0x00, 0xb6, 0x53, 0xca, 0x82, 0x27, 0x3b,
   0x7b, 0xfa, 0xd8, 0x04, 0x5d, 0x85, 0xa4, 0x70]

/-- The SHA-3-256 digest of the empty byte sequence (the value the canary
must NOT equal). -/
def sha3EmptyDigest : List Nat :=
  [0xa7, 0xff, 0xc6, 0xf8, 0xbf, 0x1e, 0xd7, 0x66,
   0x51, 0xc1, 0x47, 0x56, 0xa0, 0x61, 0xd6, 0x62,
   0xf5, 0x80, 0xff, 0x4d, 0xe4, 0x3b, 0x49, 0xfa,
   0x82, 0xd8, 0x0a, 0x4b, 0x80, 0xf8, 0x43, 0x4a]


/-! ## EIP-55 checksum encoders -/

/-- ASCII `toLowerCase` on a character code, as JavaScript's
`String.prototype.toLowerCase` acts on ASCII. -/
def toLowerCode (c : Nat) : Nat :=
  if 65 ≤ c ∧ c ≤ 90 then c + 32 else c

/-- ASCII `toUpperCase` on a character code. -/
def toUpperCode (c : Nat) : Nat :=
  if 97 ≤ c ∧ c ≤ 122 then c - 32 else c

/-- JavaScript's `replace('0x', '')`: remove the first occurrence of the
two-character sequence `0x` (codes 48, 120), if any. -/
def replaceFirst0x : List Nat → List Nat
  | [] => []
  | [c] => [c]
  | c1 :: c2 :: rest =>
    if c1 = 48 ∧ c2 = 120 then rest
    else c1 :: replaceFirst0x (c2 :: rest)

/-- `toChecksumAddress` from `src/vendor/keccak256.ts`'s caller
(src/unnamed/part_004, lines 428–437): lowercase, strip `0x`, hash the
40 ASCII characters, and for each of the 40 hex positions take the digest
nibble (high nibble of byte `i >> 1` for even `i`, low nibble for odd)
and uppercase the character when the nibble is ≥ 8.  Parametrised by the
`keccak256` function it calls. -/
def toChecksumAddress (keccak : List Nat → List Nat) (address : List Nat) :
    List Nat :=
  let addr := replaceFirst0x (address.map toLowerCode)
  let hash := keccak addr
  48 :: 120 :: (List.range 40).map fun i =>
    let nibble := if i % 2 = 0 then hash.getD (i >>> 1) 0 >>> 4
      else hash.getD (i >>> 1) 0 &&& 0x0f
    if 8 ≤ nibble then toUpperCode (addr.getD i 0) else addr.getD i 0

/-- Lowercase hexadecimal digit character for a value below 16
(as `@noble/hashes`' `bytesToHex` renders digits). -/
def hexDigitCode (n : Nat) : Nat :=
  if n < 10 then 48 + n else 87 + n

/-- `bytesToHex`: render a byte list as a lowercase hex string
(two characters per byte). -/
def bytesToHex (bs : List Nat) : List Nat :=
  bs.flatMap fun b => [hexDigitCode (b / 16), hexDigitCode (b % 16)]

/-- JavaScript's `parseInt(ch, 16)` on a single character: `none` models
`NaN` for a non-hex character. -/
def parseHexDigit (c : Nat) : Option Nat :=
  if 48 ≤ c ∧ c ≤ 57 then some (c - 48)
  else if 97 ≤ c ∧ c ≤ 102 then some (c - 87)
  else if 65 ≤ c ∧ c ≤ 70 then some (c - 55)
  else none

/-- The second `toChecksumAddress` implementation (src/unnamed/part_004,
lines 1336–1346): identical pipeline, but it renders the digest through
`bytesToHex` and indexes into the hex string, uppercasing when
`parseInt(hash[i], 16) >= 8` (a `NaN` comparison is false). -/
def toChecksumAddress2 (keccak : List Nat → List Nat) (address : List Nat) :
    List Nat :=
  let addr := replaceFirst0x (address.map toLowerCode)
  let hash := bytesToHex (keccak addr)
  48 :: 120 :: (List.range addr.length).map fun i =>
    let cond : Bool := match parseHexDigit (hash.getD i 0) with
      | some v => decide (8 ≤ v)
      | none => false
    if cond then toUpperCode (addr.getD i 0) else addr.getD i 0

/-- Character codes of the EIP-55 reference address
`0x5aAeb6053F3E94C9b9A09f33669435E7Ef1BeAed`. -/
def eip55Ref1 : List Nat :=
  [48, 120, 53, 97, 65, 101, 98, 54, 48, 53, 51, 70, 51, 69, 57, 52, 67, 57, 98, 57, 65, 48, 57, 102, 51, 51, 54, 54, 57, 52, 51, 53, 69, 55, 69, 102, 49, 66, 101, 65, 101, 100]

/-- Character codes of the EIP-55 reference address
`0xfB6916095ca1df60bB79Ce92cE3Ea74c37c5d359`. -/
def eip55Ref2 : List Nat :=
  [48, 120, 102, 66, 54, 57, 49, 54, 48, 57, 53, 99, 97, 49, 100, 102, 54, 48, 98, 66, 55, 57, 67, 101, 57, 50, 99, 69, 51, 69, 97, 55, 52, 99, 51, 55, 99, 53, 100, 51, 53, 57]

/-- Character codes of the EIP-55 reference address
`0xdbF03B407c01E7cD3CBea99509d93f8DDDC8C6FB`. -/
def eip55Ref3 : List Nat :=
  [48, 120, 100, 98, 70, 48, 51, 66, 52, 48, 55, 99, 48, 49, 69, 55, 99, 68, 51, 67, 66, 101, 97, 57, 57, 53, 48, 57, 100, 57, 51, 102, 56, 68, 68, 68, 67, 56, 67, 54, 70, 66]

/-- Character codes of the EIP-55 reference address
`0xD1220A0cf47c7B9Be7A2E6BA89F429762e7b9aDb`. -/
def eip55Ref4 : List Nat :=
  [48, 120, 68, 49, 50, 50, 48, 65, 48, 99, 102, 52, 55, 99, 55, 66, 57, 66, 101, 55, 65, 50, 69, 54, 66, 65, 56, 57, 70, 52, 50, 57, 55, 54, 50, 101, 55, 98, 57, 97, 68, 98]


/-! ## Data model and `validate()` orchestrator -/

/-- A JSON value, as produced by `JSON.parse`. -/
inductive Json where
  | null : Json
  | bool (b : Bool) : Json
  | num (n : Int) : Json
  | str (s : String) : Json
  | arr (items : List Json) : Json
  | obj (fields : List (String × Json)) : Json

/-- Whether a parsed JSON value is a plain object. -/
def Json.isObj : Json → Bool
  | .obj _ => true
  | _ => false

/-- Issue severity (`'error' | 'warning'`, from `types.ts`). -/
inductive Severity where
  | error : Severity
  | warning : Severity
deriving DecidableEq, BEq

/-- `ValidationIssue` from `types.ts` (src/unnamed/part_004,
lines 1362–1368): `{code, field, message, fix?, severity}`. -/
structure ValidationIssue where
  code : String
  field : String
  message : String
  fix : Option String
  severity : Severity
deriving DecidableEq

/-- `DetectedFormat` from `types.ts`: `'v2' | 'v1' | 'flat-legacy' |
'unknown'`. -/
inductive Format where
  | v2 : Format
  | v1 : Format
  | flatLegacy : Format
  | unknown : Format
deriving DecidableEq

/-- `NormalizedRequirements` from `types.ts` (src/unnamed/part_004,
lines 1387–1395). -/
structure NormalizedRequirements where
  scheme : String
  network : String
  amount : String
  asset : String
  payTo : String
  maxTimeoutSeconds : Option Nat
deriving DecidableEq

/-- The optional resource descriptor of `NormalizedConfig`. -/
structure ResourceInfo where
  url : String
  description : Option String
  mimeType : Option String
deriving DecidableEq

/-- `NormalizedConfig` from `types.ts` (src/unnamed/part_004,
lines 1380–1385). -/
structure NormalizedConfig where
  x402Version : Nat
  resource : Option ResourceInfo
  accepts : List NormalizedRequirements
deriving DecidableEq

/-- `ValidationResult` from `types.ts` (src/unnamed/part_004,
lines 1371–1377): `{valid, version, errors, warnings, normalized}`. -/
structure ValidationResult where
  valid : Bool
  version : Format
  errors : List ValidationIssue
  warnings : List ValidationIssue
  normalized : Option NormalizedConfig

/-- Input to `validate()`: a raw JSON string (as character codes) or an
already-parsed plain object. -/
inductive ValidateInput where
  | str (s : List Nat) : ValidateInput
  | obj (fields : List (String × Json)) : ValidateInput

/-- `ValidateOptions = {strict?: boolean}`. -/
structure ValidateOptions where
  strict : Bool
deriving DecidableEq

/-- The sub-components the orchestrator composes (detector, normalizer
and the rule modules); the pseudocode of `validate()` calls them through
exactly these signatures. -/
structure Components where
  detect : Json → Format
  normalize : Json → Format → NormalizedConfig × List ValidationIssue
  validateStructure : NormalizedConfig → Format → List ValidationIssue
  validateRequirements : NormalizedRequirements → String → List ValidationIssue
  validateNetwork : NormalizedRequirements → String → List ValidationIssue
  validateAddress : NormalizedRequirements → String → List ValidationIssue
  validateAmount : NormalizedRequirements → String → List ValidationIssue

/-- Modelled from the spec: §4.8 — the single fatal issue for a string
input that is not parseable JSON. -/
def invalidJsonIssue : ValidationIssue :=
  { code := "INVALID_JSON", field := "$",
    message := "Input is not valid JSON", fix := none,
    severity := Severity.error }

/-- Modelled from the spec: §4.8 — the single fatal issue for parsed
input that is not an object. -/
def notObjectIssue : ValidationIssue :=
  { code := "NOT_OBJECT", field := "$",
    message := "Input must be a JSON object", fix := none,
    severity := Severity.error }

/-- Modelled from the spec: §4.8 — the single fatal issue for an
unrecognized format. -/
def unknownFormatIssue : ValidationIssue :=
  { code := "UNKNOWN_FORMAT", field := "$",
    message := "Unrecognized config format", fix := none,
    severity := Severity.error }

/-- Modelled from the spec: §4.8 — `parseInput`: parse string input
(`JSON.parse` failure and non-object values each produce a single fatal
error), pass object input through.  `pj` is the `JSON.parse` model
(`none` = thrown `SyntaxError`). -/
def parseInput (pj : List Nat → Option Json) :
    ValidateInput → Except ValidationIssue Json
  | .str s =>
    match pj s with
    | none => .error invalidJsonIssue
    | some j => if j.isObj then .ok j else .error notObjectIssue
  | .obj fields => .ok (Json.obj fields)

/-- `earlyResult` of the orchestrator: a short-circuit result holding a
single fatal error and `normalized: null`. -/
def earlyResult (e : ValidationIssue) : ValidationResult :=
  { valid := false, version := Format.unknown, errors := [e],
    warnings := [], normalized := none }

/-- The per-entry field path of the orchestrator:
`accepts[i]`. -/
def entryPath (i : Nat) : String :=
  "accepts[" ++ toString i ++ "]"

/-- Run the four per-entry rule modules, in the order of the
orchestrator (requirements, network, address, amount). -/
def runEntryRules (c : Components) (e : NormalizedRequirements)
    (path : String) : List ValidationIssue :=
  c.validateRequirements e path ++ c.validateNetwork e path ++
    c.validateAddress e path ++ c.validateAmount e path

/-- The `validate()` pipeline (src/unnamed/part_004, lines 1068–1107),
before strict-mode post-processing: parse → detect (unknown format
short-circuits) → normalize → structure rules → per-entry rules →
aggregate, with `valid` true iff no error-severity issue was
collected. -/
def validateBase (pj : List Nat → Option Json) (c : Components)
    (input : ValidateInput) : ValidationResult :=
  match parseInput pj input with
  | .error e => earlyResult e
  | .ok parsed =>
    let format := c.detect parsed
    if format = Format.unknown then earlyResult unknownFormatIssue
    else
      let nm := c.normalize parsed format
      let issues := nm.2 ++ c.validateStructure nm.1 format ++
        nm.1.accepts.enum.flatMap fun p => runEntryRules c p.2 (entryPath p.1)
      { valid := (issues.filter fun i => i.severity == Severity.error).length == 0
        version := format
        errors := issues.filter fun i => i.severity == Severity.error
        warnings := issues.filter fun i => i.severity == Severity.warning
        normalized := some nm.1 }

/-- Reclassify one issue as error severity (all other fields kept). -/
def promoteIssue (i : ValidationIssue) : ValidationIssue :=
  { i with severity := Severity.error }

/-- Modelled from the spec: §4.8 — strict mode as a pure post-process:
reclassify every warning as an error and recompute `valid`, without
altering which issues were detected. -/
def applyStrict (r : ValidationResult) : ValidationResult :=
  let es := r.errors ++ r.warnings.map promoteIssue
  { r with errors := es, warnings := [], valid := es.length == 0 }

/-- The public `validate(input, options?)`. -/
def validate (pj : List Nat → Option Json) (c : Components)
    (input : ValidateInput) (opts : ValidateOptions) : ValidationResult :=
  if opts.strict then applyStrict (validateBase pj c input)
  else validateBase pj c input

/-- A trivial instantiation of the sub-components (used to evaluate the
orchestrator on concrete inputs). -/
def trivialComponents : Components :=
  { detect := fun _ => Format.unknown
    normalize := fun _ _ => (⟨2, none, []⟩, [])
    validateStructure := fun _ _ => []
    validateRequirements := fun _ _ => []
    validateNetwork := fun _ _ => []
    validateAddress := fun _ _ => []
    validateAmount := fun _ _ => [] }

/-- The instrumented orchestrator: the exception behaviour of
`JSON.parse` is made explicit in an `Except` monad (a `SyntaxError`
escaping `validate` would surface as `Except.error`); the orchestrator's
`parseInput` catches it, exactly where the source wraps `JSON.parse` in
`try`/`catch`. -/
def validateT (pj : List Nat → Option Json) (c : Components)
    (input : ValidateInput) (opts : ValidateOptions) :
    Except String ValidationResult :=
  let caught : Except String (Except ValidationIssue Json) :=
    match input with
    | .str s =>
      match (match pj s with
             | none => Except.error "SyntaxError"
             | some j => Except.ok j : Except String Json) with
      | .error _ => Except.ok (Except.error invalidJsonIssue)
      | .ok j =>
        Except.ok (if j.isObj then Except.ok j else Except.error notObjectIssue)
    | .obj fields => Except.ok (Except.ok (Json.obj fields))
  match caught with
  | .error e => Except.error e
  | .ok parsed =>
    Except.ok (match parsed with
      | .error e =>
        if opts.strict then applyStrict (earlyResult e) else earlyResult e
      | .ok j =>
        let format := c.detect j
        let base :=
          if format = Format.unknown then earlyResult unknownFormatIssue
          else
            let nm := c.normalize j format
            let issues := nm.2 ++ c.validateStructure nm.1 format ++
              nm.1.accepts.enum.flatMap fun p =>
                runEntryRules c p.2 (entryPath p.1)
            { valid := (issues.filter fun i => i.severity == Severity.error).length == 0
              version := format
              errors := issues.filter fun i => i.severity == Severity.error
              warnings := issues.filter fun i => i.severity == Severity.warning
              normalized := some nm.1 }
        if opts.strict then applyStrict base else base)

/-! ## Claim theorems -/

set_option maxRecDepth 1000000 in
/-- **C1**: The Keccak-256 digest of the empty byte sequence equals the
pre-NIST Keccak canary value
`c5d2460186f7233c927e7db2dcc703c0e500b653ca82273b7bfad8045d85a470`, and
differs from the SHA-3-256 empty digest
`a7ffc6f8bf1ed76651c14756a061d662f580ff4de43b49fa82d80a4b80f8434a`. -/
theorem x402_c1_keccak_empty_canary :
    keccak256 [] = keccakEmptyCanary ∧ keccak256 [] ≠ sha3EmptyDigest := by
  have h : keccak256 [] = keccakEmptyCanary := by decide
  refine ⟨h, ?_⟩
  rw [h]
  decide

/-- Filtering keeps only elements satisfying the predicate. -/
theorem all_filter_self {α : Type} (l : List α) (p : α → Bool) :
    (l.filter p).all p = true := by
  induction l with
  | nil => rfl
  | cons a t ih =>
    by_cases h : p a
    · simp [List.filter_cons, h, ih]
    · simp [List.filter_cons, h, ih]

/-- `validateBase` already satisfies the `valid`/`errors` invariant. -/
theorem validateBase_valid_eq (pj : List Nat → Option Json) (c : Components)
    (input : ValidateInput) :
    (validateBase pj c input).valid =
      ((validateBase pj c input).errors.length == 0) := by
  unfold validateBase
  rcases hp : parseInput pj input with e | parsed
  · rfl
  · by_cases h : c.detect parsed = Format.unknown
    · simp only [h, if_true]
      rfl
    · simp only [h, if_false]

/-- A `parseInput` failure always carries an error-severity issue. -/
theorem parseInput_error_severity (pj : List Nat → Option Json)
    (input : ValidateInput) (e : ValidationIssue)
    (h : parseInput pj input = Except.error e) :
    e.severity = Severity.error := by
  cases input with
  | str s =>
    simp only [parseInput] at h
    cases hp : pj s with
    | none =>
      rw [hp] at h
      cases h with | refl => rfl
    | some j =>
      rw [hp] at h
      by_cases hj : j.isObj
      · simp only [hj, if_true] at h
        cases h
      · simp only [hj, Bool.false_eq_true, if_false] at h
        cases h with | refl => rfl
  | obj fields =>
    simp only [parseInput] at h
    cases h

/-- Every issue in `validateBase`'s `errors` has error severity. -/
theorem validateBase_errors_all (pj : List Nat → Option Json)
    (c : Components) (input : ValidateInput) :
    (validateBase pj c input).errors.all
      (fun i => i.severity == Severity.error) = true := by
  unfold validateBase
  rcases hp : parseInput pj input with e | parsed
  · have he := parseInput_error_severity pj input e hp
    simp [earlyResult, he]
    rfl
  · by_cases h : c.detect parsed = Format.unknown
    · simp only [h, if_true]
      rfl
    · simp only [h, if_false]
      exact all_filter_self _ _

/-- Every issue in `validateBase`'s `warnings` has warning severity. -/
theorem validateBase_warnings_all (pj : List Nat → Option Json)
    (c : Components) (input : ValidateInput) :
    (validateBase pj c input).warnings.all
      (fun i => i.severity == Severity.warning) = true := by
  unfold validateBase
  rcases hp : parseInput pj input with e | parsed
  · rfl
  · by_cases h : c.detect parsed = Format.unknown
    · simp only [h, if_true]
      rfl
    · simp only [h, if_false]
      exact all_filter_self _ _

/-- **C2**: for every input, the `ValidationResult` returned by
`validate()` satisfies `valid == (errors.length == 0)`; everything in
`errors` has error severity and everything in `warnings` has warning
severity (so warnings never affect `valid`). -/
theorem x402_c2_valid_iff_no_errors (pj : List Nat → Option Json)
    (c : Components) (input : ValidateInput) (opts : ValidateOptions) :
    (validate pj c input opts).valid =
        ((validate pj c input opts).errors.length == 0) ∧
      (validate pj c input opts).errors.all
        (fun i => i.severity == Severity.error) = true ∧
      (validate pj c input opts).warnings.all
        (fun i => i.severity == Severity.warning) = true := by
  unfold validate
  by_cases hs : opts.strict
  · simp only [hs, if_true]
    refine ⟨rfl, ?_, rfl⟩
    simp only [applyStrict, List.all_append, Bool.and_eq_true]
    refine ⟨validateBase_errors_all pj c input, ?_⟩
    simp only [List.all_map, Function.comp]
    exact List.all_eq_true.mpr fun x _ => rfl
  · simp only [hs, if_false]
    exact ⟨validateBase_valid_eq pj c input,
      validateBase_errors_all pj c input,
      validateBase_warnings_all pj c input⟩

/-- **C9**: strict mode is a pure post-process on the same detected
issues: relative to the non-strict result it returns exactly the
previous errors plus every previous warning reclassified to error
severity, empties `warnings`, keeps `version` and `normalized`
unchanged, and recomputes `valid`; `promoteIssue` changes no field other
than `severity`. -/
theorem x402_c9_strict_frame (pj : List Nat → Option Json)
    (c : Components) (input : ValidateInput) :
    (validate pj c input ⟨true⟩).errors =
        (validate pj c input ⟨false⟩).errors ++
          (validate pj c input ⟨false⟩).warnings.map promoteIssue ∧
      (validate pj c input ⟨true⟩).warnings = [] ∧
      (validate pj c input ⟨true⟩).version =
        (validate pj c input ⟨false⟩).version ∧
      (validate pj c input ⟨true⟩).normalized =
        (validate pj c input ⟨false⟩).normalized ∧
      (validate pj c input ⟨true⟩).valid =
        (((validate pj c input ⟨false⟩).errors ++
          (validate pj c input ⟨false⟩).warnings.map promoteIssue).length
            == 0) ∧
      ∀ i : ValidationIssue, (promoteIssue i).code = i.code ∧
        (promoteIssue i).field = i.field ∧
        (promoteIssue i).message = i.message ∧
        (promoteIssue i).fix = i.fix ∧
        (promoteIssue i).severity = Severity.error := by
  refine ⟨rfl, rfl, rfl, rfl, rfl, fun i => ⟨rfl, rfl, rfl, rfl, rfl⟩⟩

/-- **C8**: `validate()` never throws for any string or plain-object
input: under the instrumented semantics `validateT`, in which the
`SyntaxError` of `JSON.parse` is an explicit exception, every call ends
in `Except.ok` of the pure result; moreover the empty string (or any
string `JSON.parse` rejects) and an empty / unrecognized object each
yield an ordinary result carrying a single fatal issue and
`normalized = null` instead of an exception. -/
theorem x402_c8_validate_never_throws (pj : List Nat → Option Json)
    (c : Components) (input : ValidateInput) (opts : ValidateOptions) :
    validateT pj c input opts = Except.ok (validate pj c input opts) ∧
      (pj [] = none →
        (validate pj c (ValidateInput.str []) opts).valid = false ∧
        (validate pj c (ValidateInput.str []) opts).errors.length = 1 ∧
        (validate pj c (ValidateInput.str []) opts).normalized = none) ∧
      (c.detect (Json.obj []) = Format.unknown →
        (validate pj c (ValidateInput.obj []) opts).valid = false ∧
        (validate pj c (ValidateInput.obj []) opts).errors.length = 1 ∧
        (validate pj c (ValidateInput.obj []) opts).normalized = none) := by
  refine ⟨?_, ?_, ?_⟩
  · unfold validateT validate validateBase parseInput
    cases input with
    | str s =>
      cases hp : pj s with
      | none => by_cases hs : opts.strict <;> simp [hp, hs]
      | some j =>
        by_cases hj : j.isObj <;> by_cases hs : opts.strict <;>
          simp [hp, hj, hs]
    | obj fields => by_cases hs : opts.strict <;> simp [hs]
  · intro h
    unfold validate validateBase parseInput
    by_cases hs : opts.strict <;>
      simp [hs, h, applyStrict, earlyResult, promoteIssue]
  · intro h
    unfold validate validateBase parseInput
    by_cases hs : opts.strict <;>
      simp [hs, h, applyStrict, earlyResult, promoteIssue]

/-- Witness for C8: with a `JSON.parse` model that rejects the empty
string, `validate` on the empty string returns an ordinary result with
one fatal error and no normalized config. -/
theorem x402_c8_never_throws_witness :
    (validate (fun _ => none) trivialComponents
      (ValidateInput.str []) ⟨false⟩).valid = false ∧
    (validate (fun _ => none) trivialComponents
      (ValidateInput.str []) ⟨false⟩).errors.length = 1 ∧
    (validate (fun _ => none) trivialComponents
      (ValidateInput.str []) ⟨false⟩).normalized = none :=
  (x402_c8_validate_never_throws (fun _ => none) trivialComponents
    (ValidateInput.str []) ⟨false⟩).2.1 rfl

/-! ## Raw-Base58 address family rule (spec-modelled) -/

/-- Modelled from the spec: §4.7 Address rule, raw-Base58-public-key
family (the rule module itself is not under the sources here): decode
the address via the Base58 decoder, require exactly 32 bytes, and — as
the family has no checksum — emit a no-checksum-available warning on
success. -/
def solanaAddressIssues (address : List Nat) (path : String) :
    List ValidationIssue :=
  match base58Decode address with
  | none =>
    [{ code := "INVALID_BASE58", field := path,
       message := "Address is not valid Base58", fix := none,
       severity := Severity.error }]
  | some bytes =>
    if bytes.length = 32 then
      [{ code := "NO_CHECKSUM_AVAILABLE", field := path,
         message := "Base58 public keys carry no checksum; only format and length were checked",
         fix := none, severity := Severity.warning }]
    else
      [{ code := "INVALID_PUBKEY_LENGTH", field := path,
         message := "Address must decode to exactly 32 bytes", fix := none,
         severity := Severity.error }]

/-- **C4 (counterexample)**: the input of 44 `'1'` characters does NOT
decode to 32 zero bytes — `base58Decode` returns 44 zero bytes (one per
leading `'1'`), and the raw-public-key address rule therefore reports an
error-severity issue rather than `valid:true` with a warning. -/
theorem x402_c4_counterexample :
    base58Decode (List.replicate 44 49) = some (List.replicate 44 0) ∧
      List.replicate 44 (0 : Nat) ≠ List.replicate 32 (0 : Nat) ∧
      (solanaAddressIssues (List.replicate 44 49) "payTo").all
        (fun i => i.severity == Severity.error) = true := by
  decide

/-- **C4 (amended)**: a raw-public-key-family address of 32 `'1'`
characters decodes to exactly 32 zero bytes, and the address rule then
yields no error and exactly one no-checksum-available warning
(`valid:true` with a warning); the 44-`'1'` input instead decodes to 44
zero bytes. -/
theorem x402_c4_amended :
    base58Decode (List.replicate 32 49) = some (List.replicate 32 0) ∧
      (solanaAddressIssues (List.replicate 32 49) "payTo").all
        (fun i => i.severity == Severity.warning) = true ∧
      (solanaAddressIssues (List.replicate 32 49) "payTo").length = 1 ∧
      base58Decode (List.replicate 44 49) = some (List.replicate 44 0) := by
  decide

/-! ## Base58 lemmas -/

/-- A character fails the decoder's validity test iff it is outside the
58-character alphabet. -/
theorem b58_invalid_iff (c : Nat) :
    (128 ≤ c ∨ b58map c = 255) ↔ c ∉ B58ALPHA := by
  constructor
  · rintro (h | h) hmem
    · have : c < 128 := by
        have : ∀ x ∈ B58ALPHA, x < 128 := by decide
        exact this c hmem
      omega
    · have hidx : B58ALPHA.indexOf c < B58ALPHA.length :=
        List.indexOf_lt_length.mpr hmem
      have hlen : B58ALPHA.length = 58 := by decide
      rw [hlen] at hidx
      unfold b58map at h
      simp only [hidx, if_true] at h
      omega
  · intro hmem
    right
    have hidx : B58ALPHA.indexOf c = B58ALPHA.length :=
      List.indexOf_of_not_mem hmem
    have hlen : B58ALPHA.length = 58 := by decide
    unfold b58map
    rw [hidx, hlen]
    simp

/-- The decoder's main loop fails iff some digit character is outside
the alphabet. -/
theorem decodeLoop_none_iff (ds : List Nat) (buf : List Nat) :
    decodeLoop ds buf = none ↔ ∃ c ∈ ds, c ∉ B58ALPHA := by
  induction ds generalizing buf with
  | nil => simp [decodeLoop]
  | cons c cs ih =>
    unfold decodeLoop
    by_cases h : 128 ≤ c ∨ b58map c = 255
    · simp only [h, if_true]
      constructor
      · intro _
        exact ⟨c, List.mem_cons_self c cs, (b58_invalid_iff c).mp h⟩
      · intro _
        trivial
    · simp only [h, if_false]
      rw [ih]
      constructor
      · rintro ⟨x, hx, hxa⟩
        exact ⟨x, List.mem_cons_of_mem c hx, hxa⟩
      · rintro ⟨x, hx, hxa⟩
        rcases List.mem_cons.mp hx with rfl | hx
        · exact absurd ((b58_invalid_iff x).mpr hxa) h
        · exact ⟨x, hx, hxa⟩

/-- Elements inside the counted leading run all equal `v`. -/
theorem mem_take_countLeading (v : Nat) (s : List Nat) (x : Nat)
    (h : x ∈ s.take (countLeading v s)) : x = v := by
  induction s with
  | nil => simp at h
  | cons c cs ih =>
    unfold countLeading at h
    by_cases hc : c = v
    · simp only [hc, if_true] at h
      rcases List.mem_cons.mp h with rfl | h
      · rfl
      · exact ih h
    · simp only [hc, if_false, List.take_zero] at h
      simp at h

/-- **C7**: `base58Decode` fails (with the invalid-character error) if
and only if the input contains at least one character outside the
58-character alphabet; on alphabet-only input it returns a byte
array. -/
theorem x402_c7_base58_invalid_char (s : List Nat) :
    base58Decode s = none ↔ ∃ c ∈ s, c ∉ B58ALPHA := by
  unfold base58Decode
  dsimp only
  rcases hd : decodeLoop (s.drop (countLeading 49 s))
      (List.replicate ((s.length * 733 + 999) / 1000 + 1) 0) with _ | buf
  · rcases (decodeLoop_none_iff _ _).mp hd with ⟨c, hc, hca⟩
    exact iff_of_true rfl ⟨c, List.mem_of_mem_drop hc, hca⟩
  · constructor
    · intro h
      cases h
    · rintro ⟨c, hc, hmem⟩
      exfalso
      have hc2 : c ∈ s.take (countLeading 49 s) ++ s.drop (countLeading 49 s) := by
        rw [List.take_append_drop]
        exact hc
      have hcd : c ∈ s.drop (countLeading 49 s) := by
        rcases List.mem_append.mp hc2 with ht | hdrop
        · have h49 : c = 49 := mem_take_countLeading 49 s c ht
          rw [h49] at hmem
          exact absurd (by decide : (49 : Nat) ∈ B58ALPHA) hmem
        · exact hdrop
      have hnone : decodeLoop (s.drop (countLeading 49 s))
          (List.replicate ((s.length * 733 + 999) / 1000 + 1) 0) = none :=
        (decodeLoop_none_iff _ _).mpr ⟨c, hcd, hmem⟩
      rw [hnone] at hd
      cases hd

/-- After dropping the counted leading run of `v`, the list no longer
starts with `v`. -/
theorem head_drop_countLeading (v : Nat) (l : List Nat) :
    ∀ x, (l.drop (countLeading v l)).head? = some x → x ≠ v := by
  induction l with
  | nil =>
    intro x h
    simp at h
  | cons c cs ih =>
    intro x h
    unfold countLeading at h
    by_cases hc : c = v
    · simp only [hc, if_true] at h
      rw [List.drop_succ_cons] at h
      exact ih x h
    · simp only [hc, if_false, List.drop_zero, List.head?_cons] at h
      cases h with | refl => exact hc

/-- **C3**: on alphabet-only input with exactly `N` leading `'1'`
characters, `base58Decode` succeeds and its output is exactly `N` zero
bytes prepended to the stripped base-conversion output (which does not
itself start with a zero byte). -/
theorem x402_c3_leading_ones (s : List Nat) (N : Nat)
    (halpha : ∀ c ∈ s, c ∈ B58ALPHA) (hN : countLeading 49 s = N) :
    ∃ t, base58Decode s = some (List.replicate N 0 ++ t) ∧
      ∀ x, t.head? = some x → x ≠ 0 := by
  unfold base58Decode
  dsimp only
  rcases hd : decodeLoop (s.drop (countLeading 49 s))
      (List.replicate ((s.length * 733 + 999) / 1000 + 1) 0) with _ | buf
  · exfalso
    rcases (decodeLoop_none_iff _ _).mp hd with ⟨c, hc, hmem⟩
    exact hmem (halpha c (List.mem_of_mem_drop hc))
  · refine ⟨buf.drop (countLeading 0 buf), ?_, head_drop_countLeading 0 buf⟩
    rw [hN]

/-- Witness for C3: the input `"11z"` (two leading `'1'`s) decodes to
two zero bytes followed by a non-zero byte. -/
theorem x402_c3_leading_ones_witness :
    (∀ c ∈ [49, 49, 122], c ∈ B58ALPHA) ∧
      countLeading 49 [49, 49, 122] = 2 ∧
      ∃ t, base58Decode [49, 49, 122] = some (List.replicate 2 0 ++ t) ∧
        ∀ x, t.head? = some x → x ≠ 0 :=
  ⟨by decide, by decide,
    x402_c3_leading_ones [49, 49, 122] 2 (by decide) (by decide)⟩

/-! ## Equivalence of the two checksum implementations -/

/-- A hexadecimal digit character (0–9, a–f, A–F). -/
def isHexDigitCode (c : Nat) : Bool :=
  (48 ≤ c && c ≤ 57) || (97 ≤ c && c ≤ 102) || (65 ≤ c && c ≤ 70)

/-- `replace('0x','')` removes a literal `0x` prefix. -/
theorem replaceFirst0x_cons_cons (l : List Nat) :
    replaceFirst0x (48 :: 120 :: l) = l := by
  simp [replaceFirst0x]

/-- Reading the hex rendering of a byte list at position `i` gives the
hex digit of the high nibble of byte `i / 2` for even `i`, of the low
nibble for odd `i`. -/
theorem bytesToHex_getD (h : List Nat) (i : Nat) (hi : i < 2 * h.length) :
    (bytesToHex h).getD i 0 =
      hexDigitCode (if i % 2 = 0 then h.getD (i / 2) 0 / 16
        else h.getD (i / 2) 0 % 16) := by
  induction h generalizing i with
  | nil => simp at hi
  | cons b bs ih =>
    match i with
    | 0 => rfl
    | 1 => rfl
    | k + 2 =>
      have hk : k < 2 * bs.length := by
        simp only [List.length_cons] at hi
        omega
      have h1 : (bytesToHex (b :: bs)).getD (k + 2) 0 =
          (bytesToHex bs).getD k 0 := rfl
      have h2 : (k + 2) % 2 = k % 2 := Nat.add_mod_right k 2
      have h3 : (k + 2) / 2 = k / 2 + 1 := by omega
      rw [h1, ih k hk, h2, h3]
      rfl

/-- `parseInt` inverts the hex rendering of a value below 16. -/
theorem parseHexDigit_hexDigitCode (v : Nat) (hv : v < 16) :
    parseHexDigit (hexDigitCode v) = some v := by
  unfold parseHexDigit hexDigitCode
  split_ifs <;> first
    | (rw [Option.some_inj]; omega)
    | omega

/-- **C10**: the two `toChecksumAddress` implementations — nibble
extraction from raw digest bytes versus indexing into the hex rendering
of the digest — agree on every `0x`-prefixed 40-hex-character address,
given the same `keccak256` function (returning 32 bytes). -/
theorem x402_c10_checksum_impls_agree (keccak : List Nat → List Nat)
    (rest : List Nat) (hlen : rest.length = 40)
    (_hhex : ∀ c ∈ rest, isHexDigitCode c = true)
    (hklen : (keccak (rest.map toLowerCode)).length = 32)
    (hbytes : ∀ b ∈ keccak (rest.map toLowerCode), b < 256) :
    toChecksumAddress keccak (48 :: 120 :: rest) =
      toChecksumAddress2 keccak (48 :: 120 :: rest) := by
  unfold toChecksumAddress toChecksumAddress2
  dsimp only
  have haddr : replaceFirst0x ((48 :: 120 :: rest).map toLowerCode) =
      rest.map toLowerCode := by
    have h48 : toLowerCode 48 = 48 := rfl
    have h120 : toLowerCode 120 = 120 := rfl
    simp only [List.map_cons, h48, h120]
    exact replaceFirst0x_cons_cons _
  rw [haddr]
  have hlen2 : (rest.map toLowerCode).length = 40 := by
    rw [List.length_map, hlen]
  rw [hlen2]
  refine congrArg (List.cons 48) (congrArg (List.cons 120) ?_)
  apply List.map_congr_left
  intro i hi
  have hi40 : i < 40 := List.mem_range.mp hi
  set hsh := keccak (rest.map toLowerCode) with hdef
  have hb : hsh.getD (i / 2) 0 < 256 := by
    have hlt : i / 2 < hsh.length := by omega
    have : hsh.getD (i / 2) 0 = hsh.get ⟨i / 2, hlt⟩ := by
      rw [List.getD_eq_getElem?_getD, List.getElem?_eq_getElem hlt]
      rfl
    rw [this]
    exact hbytes _ (List.get_mem hsh (i / 2) hlt)
  have hhx : (bytesToHex hsh).getD i 0 =
      hexDigitCode (if i % 2 = 0 then hsh.getD (i / 2) 0 / 16
        else hsh.getD (i / 2) 0 % 16) := by
    apply bytesToHex_getD
    omega
  have hshift : hsh.getD (i >>> 1) 0 >>> 4 = hsh.getD (i / 2) 0 / 16 := by
    rw [Nat.shiftRight_eq_div_pow, Nat.shiftRight_eq_div_pow]
  have hand : hsh.getD (i >>> 1) 0 &&& 0x0f = hsh.getD (i / 2) 0 % 16 := by
    rw [Nat.shiftRight_eq_div_pow]
    exact Nat.and_pow_two_sub_one_eq_mod _ 4
  by_cases hpar : i % 2 = 0
  · rw [hhx]
    simp only [hpar, if_true]
    rw [parseHexDigit_hexDigitCode _ (by omega)]
    simp only [hshift, hpar, if_true]
    by_cases hc : 8 ≤ hsh.getD (i / 2) 0 / 16
    · simp [hc]
    · simp [hc]
  · rw [hhx]
    simp only [hpar, if_false]
    rw [parseHexDigit_hexDigitCode _ (by omega)]
    simp only [hand, hpar, if_false]
    by_cases hc : 8 ≤ hsh.getD (i / 2) 0 % 16
    · simp [hc]
    · simp [hc]

set_option maxRecDepth 1000000 in
/-- Witness for C10: the two implementations agree on the first EIP-55
reference address with the modelled `keccak256`. -/
theorem x402_c10_checksum_impls_agree_witness :
    toChecksumAddress keccak256 (48 :: 120 :: eip55Ref1.drop 2) =
      toChecksumAddress2 keccak256 (48 :: 120 :: eip55Ref1.drop 2) :=
  x402_c10_checksum_impls_agree keccak256 (eip55Ref1.drop 2)
    (by decide) (by decide) (by decide) (by decide)

/-! ## EIP-55 idempotence machinery -/

/-- A lowercase hexadecimal digit character (0–9, a–f). -/
def isLowerHex (c : Nat) : Bool :=
  (48 ≤ c && c ≤ 57) || (97 ≤ c && c ≤ 102)

/-- Lowercasing a hex digit gives a lowercase hex digit. -/
theorem lower_hex_of_hex (c : Nat) (h : isHexDigitCode c = true) :
    isLowerHex (toLowerCode c) = true := by
  unfold isHexDigitCode at h
  unfold isLowerHex toLowerCode
  simp only [Bool.or_eq_true, Bool.and_eq_true, decide_eq_true_eq] at h ⊢
  split_ifs with hc
  · omega
  · omega

/-- Lowercase hex digits are fixed by `toLowerCase`. -/
theorem toLower_self_lower (c : Nat) (h : isLowerHex c = true) :
    toLowerCode c = c := by
  unfold isLowerHex at h
  unfold toLowerCode
  simp only [Bool.or_eq_true, Bool.and_eq_true, decide_eq_true_eq] at h
  split_ifs with hc
  · omega
  · rfl

/-- Round-tripping a lowercase hex digit through `toUpperCase` and
`toLowerCase` is the identity. -/
theorem toLower_toUpper_lower (c : Nat) (h : isLowerHex c = true) :
    toLowerCode (toUpperCode c) = c := by
  unfold isLowerHex at h
  unfold toLowerCode toUpperCode
  simp only [Bool.or_eq_true, Bool.and_eq_true, decide_eq_true_eq] at h
  split_ifs <;> omega

/-- A list of lowercase hex digits is fixed by `toLowerCase`. -/
theorem map_toLower_lower (l : List Nat) (h : ∀ c ∈ l, isLowerHex c = true) :
    l.map toLowerCode = l := by
  have := List.map_congr_left (f := toLowerCode) (g := id)
    (fun c hc => toLower_self_lower c (h c hc))
  rw [this, List.map_id]

/-- The checksummed rendering depends on the input only through its
lowercased, `0x`-stripped form. -/
theorem checksum_eq_of_lower_eq (keccak : List Nat → List Nat)
    (a b : List Nat)
    (h : replaceFirst0x (a.map toLowerCode) = replaceFirst0x (b.map toLowerCode)) :
    toChecksumAddress keccak a = toChecksumAddress keccak b := by
  unfold toChecksumAddress
  rw [h]

/-- Lowercasing the checksummed rendering of a lowercase-hex 40-character
address recovers the `0x`-prefixed address itself. -/
theorem checksum_map_toLower (keccak : List Nat → List Nat)
    (addr : List Nat) (hlen : addr.length = 40)
    (hlow : ∀ c ∈ addr, isLowerHex c = true) :
    (toChecksumAddress keccak (48 :: 120 :: addr)).map toLowerCode =
      48 :: 120 :: addr := by
  unfold toChecksumAddress
  dsimp only
  have h1 : (48 :: 120 :: addr).map toLowerCode = 48 :: 120 :: addr.map toLowerCode := rfl
  rw [h1, replaceFirst0x_cons_cons, map_toLower_lower addr hlow]
  rw [List.map_cons, List.map_cons]
  have h48 : toLowerCode 48 = 48 := rfl
  have h120 : toLowerCode 120 = 120 := rfl
  rw [h48, h120, List.map_map]
  refine congrArg (List.cons 48) (congrArg (List.cons 120) ?_)
  apply List.ext_getElem
  · simp [hlen]
  · intro i h1 h2
    simp only [List.getElem_map, List.getElem_range, Function.comp]
    have hi40 : i < 40 := by
      simpa using h1
    have hmem : addr.getD i 0 ∈ addr := by
      have hlt : i < addr.length := by omega
      rw [List.getD_eq_getElem?_getD, List.getElem?_eq_getElem hlt]
      exact List.getElem_mem hlt
    have hlc := hlow _ hmem
    by_cases hcond : 8 ≤ (if i % 2 = 0 then (keccak addr).getD (i >>> 1) 0 >>> 4
        else (keccak addr).getD (i >>> 1) 0 &&& 0x0f)
    · simp only [hcond, if_true]
      rw [toLower_toUpper_lower _ hlc]
      rw [List.getD_eq_getElem?_getD, List.getElem?_eq_getElem (by omega)]
      rfl
    · simp only [hcond, if_false]
      rw [toLower_self_lower _ hlc]
      rw [List.getD_eq_getElem?_getD, List.getElem?_eq_getElem (by omega)]
      rfl

set_option maxRecDepth 1000000 in
/-- **C5**: `toChecksumAddress` applied to the all-lowercase form of each
of the four published EIP-55 reference addresses returns the reference
address itself; and the encoder is idempotent on every `0x`-prefixed
40-hex-character address, for any `keccak256` function. -/
theorem x402_c5_checksum_refs_idempotent :
    (toChecksumAddress keccak256 (eip55Ref1.map toLowerCode) = eip55Ref1 ∧
      toChecksumAddress keccak256 (eip55Ref2.map toLowerCode) = eip55Ref2 ∧
      toChecksumAddress keccak256 (eip55Ref3.map toLowerCode) = eip55Ref3 ∧
      toChecksumAddress keccak256 (eip55Ref4.map toLowerCode) = eip55Ref4) ∧
    ∀ (keccak : List Nat → List Nat) (rest : List Nat),
      rest.length = 40 → (∀ c ∈ rest, isHexDigitCode c = true) →
      toChecksumAddress keccak
          (toChecksumAddress keccak (48 :: 120 :: rest)) =
        toChecksumAddress keccak (48 :: 120 :: rest) := by
  constructor
  · exact ⟨by decide, by decide, by decide, by decide⟩
  · intro keccak rest hlen hhex
    have hlow : ∀ c ∈ rest.map toLowerCode, isLowerHex c = true := by
      intro c hc
      rcases List.mem_map.mp hc with ⟨x, hx, rfl⟩
      exact lower_hex_of_hex x (hhex x hx)
    have hlen2 : (rest.map toLowerCode).length = 40 := by
      rw [List.length_map, hlen]
    have hstrip : replaceFirst0x ((48 :: 120 :: rest).map toLowerCode) =
        rest.map toLowerCode := by
      have h1 : (48 :: 120 :: rest).map toLowerCode =
          48 :: 120 :: rest.map toLowerCode := rfl
      rw [h1, replaceFirst0x_cons_cons]
    have hkey : toChecksumAddress keccak (48 :: 120 :: rest) =
        toChecksumAddress keccak (48 :: 120 :: rest.map toLowerCode) := by
      apply checksum_eq_of_lower_eq
      rw [hstrip]
      have h2 : (48 :: 120 :: rest.map toLowerCode).map toLowerCode =
          48 :: 120 :: (rest.map toLowerCode).map toLowerCode := rfl
      rw [h2, replaceFirst0x_cons_cons, map_toLower_lower _ hlow]
    apply checksum_eq_of_lower_eq
    rw [hkey, checksum_map_toLower keccak (rest.map toLowerCode) hlen2 hlow]
    rw [replaceFirst0x_cons_cons, hstrip]

set_option maxRecDepth 1000000 in
/-- Witness for C5: idempotence at the first reference address with the
modelled `keccak256`. -/
theorem x402_c5_checksum_refs_idempotent_witness :
    toChecksumAddress keccak256
        (toChecksumAddress keccak256 (48 :: 120 :: eip55Ref1.drop 2)) =
      toChecksumAddress keccak256 (48 :: 120 :: eip55Ref1.drop 2) :=
  x402_c5_checksum_refs_idempotent.2 keccak256 (eip55Ref1.drop 2)
    (by decide) (by decide)

/-! ## Base58 round-trip: value semantics of the conversion loop -/

/-- Value of a little-endian byte list. -/
def valueLE : List Nat → Nat
  | [] => 0
  | b :: bs => b + 256 * valueLE bs

/-- Value of a big-endian byte list (as the decoder's buffer is read). -/
def valueBE (l : List Nat) : Nat :=
  valueLE l.reverse

/-- The reference Base58 encoder (§8 of the spec pairs the decoder with
a reference encoder): one `'1'` per leading zero byte, then the base-58
digits of the remaining big-endian value, most significant first. -/
def base58Encode (b : List Nat) : List Nat :=
  List.replicate (countLeading 0 b) 49 ++
    (Nat.digits 58 (valueBE b)).reverse.map fun d => B58ALPHA.getD d 0

theorem muladdLE_length (c : Nat) (bs : List Nat) :
    (muladdLE c bs).length = bs.length := by
  induction bs generalizing c with
  | nil => rfl
  | cons b bs ih => simp [muladdLE, ih]

theorem muladdLE_lt (c : Nat) (bs : List Nat) :
    ∀ x ∈ muladdLE c bs, x < 256 := by
  induction bs generalizing c with
  | nil => intro x hx; simp [muladdLE] at hx
  | cons b bs ih =>
    intro x hx
    unfold muladdLE at hx
    rcases List.mem_cons.mp hx with rfl | hx
    · exact Nat.mod_lt _ (by omega)
    · exact ih _ x hx

/-- Folding one low byte into a reduced tail: `r + 256 * (y % M)`
equals `(r + 256 * y) % (256 * M)` when `r < 256`. -/
theorem add_mul_mod_aux (r y M : Nat) (hM : 0 < M) (hr : r < 256) :
    r + 256 * (y % M) = (r + 256 * y) % (256 * M) := by
  have h1 : r + 256 * y = r + 256 * (y % M) + 256 * M * (y / M) := by
    conv_lhs => rw [← Nat.div_add_mod y M]
    ring
  rw [h1, Nat.add_mul_mod_self_left]
  have hym : y % M < M := Nat.mod_lt y hM
  exact (Nat.mod_eq_of_lt (by omega)).symm

theorem valueLE_muladdLE (c : Nat) (bs : List Nat) :
    valueLE (muladdLE c bs) = (c + 58 * valueLE bs) % 256 ^ bs.length := by
  induction bs generalizing c with
  | nil => simp [muladdLE, valueLE, Nat.mod_one]
  | cons b bs ih =>
    show (c + 58 * b) % 256 +
        256 * valueLE (muladdLE ((c + 58 * b) / 256) bs) =
      (c + 58 * valueLE (b :: bs)) % 256 ^ (b :: bs).length
    rw [ih]
    rw [add_mul_mod_aux _ _ _ (Nat.pow_pos (by omega))
      (Nat.mod_lt _ (by omega))]
    have h2 : (c + 58 * b) % 256 +
        256 * ((c + 58 * b) / 256 + 58 * valueLE bs) =
        c + 58 * valueLE (b :: bs) := by
      show _ = c + 58 * (b + 256 * valueLE bs)
      omega
    rw [h2, List.length_cons, pow_succ, Nat.mul_comm (256 ^ bs.length) 256]

theorem muladdBE_length (c : Nat) (buf : List Nat) :
    (muladdBE c buf).length = buf.length := by
  unfold muladdBE
  rw [List.length_reverse, muladdLE_length, List.length_reverse]

theorem muladdBE_lt (c : Nat) (buf : List Nat) :
    ∀ x ∈ muladdBE c buf, x < 256 := by
  intro x hx
  unfold muladdBE at hx
  exact muladdLE_lt c buf.reverse x (List.mem_reverse.mp hx)

theorem valueBE_muladdBE (c : Nat) (buf : List Nat) :
    valueBE (muladdBE c buf) = (c + 58 * valueBE buf) % 256 ^ buf.length := by
  unfold muladdBE valueBE
  rw [List.reverse_reverse, valueLE_muladdLE, List.length_reverse]

/-- Horner folds respect congruence of the accumulator. -/
theorem foldl_horner_modeq (l : List Nat) {M a b : Nat}
    (h : a ≡ b [MOD M]) :
    l.foldl (fun x c => 58 * x + b58map c) a ≡
      l.foldl (fun x c => 58 * x + b58map c) b [MOD M] := by
  induction l generalizing a b with
  | nil => exact h
  | cons c cs ih => exact ih (Nat.ModEq.add_right _ (h.mul_left 58))

/-- On alphabet-only digits the conversion loop succeeds, preserves the
buffer length and byte bounds, and computes the Horner value of the
digits modulo `256 ^ size`. -/
theorem decodeLoop_spec (ds : List Nat) (buf : List Nat)
    (hds : ∀ c ∈ ds, c ∈ B58ALPHA) (hbuf : ∀ x ∈ buf, x < 256) :
    ∃ out, decodeLoop ds buf = some out ∧ out.length = buf.length ∧
      (∀ x ∈ out, x < 256) ∧
      valueBE out ≡ ds.foldl (fun a c => 58 * a + b58map c) (valueBE buf)
        [MOD 256 ^ buf.length] := by
  induction ds generalizing buf with
  | nil => exact ⟨buf, rfl, rfl, hbuf, Nat.ModEq.refl _⟩
  | cons c cs ih =>
    have hc : c ∈ B58ALPHA := hds c (List.mem_cons_self c cs)
    have hvalid : ¬(128 ≤ c ∨ b58map c = 255) := by
      rw [b58_invalid_iff]
      simp [hc]
    unfold decodeLoop
    simp only [hvalid, if_false]
    obtain ⟨out, hout, hlen, hlt, hmod⟩ :=
      ih (muladdBE (b58map c) buf)
        (fun x hx => hds x (List.mem_cons_of_mem c hx))
        (muladdBE_lt (b58map c) buf)
    refine ⟨out, hout, ?_, hlt, ?_⟩
    · rw [hlen, muladdBE_length]
    · rw [muladdBE_length, valueBE_muladdBE] at hmod
      simp only [List.foldl_cons]
      refine hmod.trans ?_
      apply foldl_horner_modeq
      have h1 : (b58map c + 58 * valueBE buf) % 256 ^ buf.length ≡
          b58map c + 58 * valueBE buf [MOD 256 ^ buf.length] :=
        Nat.mod_modEq _ _
      have h2 : b58map c + 58 * valueBE buf = 58 * valueBE buf + b58map c := by
        omega
      exact h1.trans (by rw [h2])

theorem valueLE_lt (l : List Nat) (h : ∀ x ∈ l, x < 256) :
    valueLE l < 256 ^ l.length := by
  induction l with
  | nil => simp [valueLE]
  | cons b bs ih =>
    have hb : b < 256 := h b (List.mem_cons_self b bs)
    have ht := ih (fun x hx => h x (List.mem_cons_of_mem _ hx))
    show b + 256 * valueLE bs < 256 ^ (bs.length + 1)
    rw [pow_succ]
    omega

theorem valueLE_replicate_zero (k : Nat) :
    valueLE (List.replicate k 0) = 0 := by
  induction k with
  | zero => rfl
  | succ k ih => simp [List.replicate_succ, valueLE, ih]

theorem valueLE_append_zeros (l : List Nat) (k : Nat) :
    valueLE (l ++ List.replicate k 0) = valueLE l := by
  induction l with
  | nil => simp [valueLE, valueLE_replicate_zero]
  | cons b bs ih => simp [valueLE, ih]

theorem countLeading_le_length (v : Nat) (l : List Nat) :
    countLeading v l ≤ l.length := by
  induction l with
  | nil => simp [countLeading]
  | cons c cs ih =>
    unfold countLeading
    by_cases hc : c = v
    · simp only [hc, if_true, List.length_cons]
      omega
    · simp [hc]

theorem take_countLeading_eq_replicate (v : Nat) (l : List Nat) :
    l.take (countLeading v l) = List.replicate (countLeading v l) v := by
  apply List.eq_replicate_iff.mpr
  constructor
  · rw [List.length_take]
    exact Nat.min_eq_left (countLeading_le_length v l)
  · exact fun x hx => mem_take_countLeading v l x hx

theorem countLeading_replicate_append (v : Nat) (k : Nat) (l : List Nat) :
    countLeading v (List.replicate k v ++ l) = k + countLeading v l := by
  induction k with
  | zero => simp
  | succ k ih =>
    simp only [List.replicate_succ, List.cons_append]
    show (if v = v then countLeading v (List.replicate k v ++ l) + 1 else 0) =
      k + 1 + countLeading v l
    rw [if_pos rfl, ih]
    omega

theorem valueLE_eq_ofDigits (l : List Nat) :
    valueLE l = Nat.ofDigits 256 l := by
  induction l with
  | nil => rfl
  | cons b bs ih =>
    rw [Nat.ofDigits_cons, ← ih]
    show b + 256 * valueLE bs = _
    ring

/-- Stripping the leading zero bytes of a byte buffer yields the
canonical (no-leading-zero) big-endian byte rendering of its value. -/
theorem drop_countLeading_eq_digits (buf : List Nat)
    (h : ∀ x ∈ buf, x < 256) :
    buf.drop (countLeading 0 buf) =
      (Nat.digits 256 (valueBE buf)).reverse := by
  have htake : buf.take (countLeading 0 buf) =
      List.replicate (countLeading 0 buf) 0 :=
    take_countLeading_eq_replicate 0 buf
  have hsplit : buf = List.replicate (countLeading 0 buf) 0 ++
      buf.drop (countLeading 0 buf) := by
    conv_lhs => rw [← List.take_append_drop (countLeading 0 buf) buf]
    rw [htake]
  have hval : valueBE buf = valueLE (buf.drop (countLeading 0 buf)).reverse := by
    conv_lhs => rw [hsplit]
    unfold valueBE
    rw [List.reverse_append, List.reverse_replicate, valueLE_append_zeros]
  rw [hval]
  have hmem : ∀ x ∈ (buf.drop (countLeading 0 buf)).reverse, x < 256 := by
    intro x hx
    exact h x (List.mem_of_mem_drop (List.mem_reverse.mp hx))
  have hlast : ∀ (hne : (buf.drop (countLeading 0 buf)).reverse ≠ []),
      (buf.drop (countLeading 0 buf)).reverse.getLast hne ≠ 0 := by
    intro hne
    have htne : buf.drop (countLeading 0 buf) ≠ [] := by
      intro hcon
      rw [hcon] at hne
      exact hne rfl
    have hq := List.getLast?_reverse (buf.drop (countLeading 0 buf))
    rw [List.getLast?_eq_getLast _ hne] at hq
    rcases hx : (buf.drop (countLeading 0 buf)).head? with _ | x
    · rw [List.head?_eq_none_iff] at hx
      exact absurd hx htne
    · have hx0 : x ≠ 0 := head_drop_countLeading 0 buf x hx
      rw [hx] at hq
      cases hq with | refl => exact hx0
  have hdig := Nat.digits_ofDigits 256 (by omega)
    (buf.drop (countLeading 0 buf)).reverse hmem hlast
  rw [← valueLE_eq_ofDigits] at hdig
  rw [hdig, List.reverse_reverse]

/-- The decoder's lookup table inverts indexing into the alphabet. -/
theorem b58map_getD (d : Nat) (hd : d < 58) :
    b58map (B58ALPHA.getD d 0) = d := by
  have hlen : B58ALPHA.length = 58 := by decide
  have hnodup : B58ALPHA.Nodup := by decide
  have hdl : d < B58ALPHA.length := by omega
  have hget : B58ALPHA.getD d 0 = B58ALPHA[d] := by
    rw [List.getD_eq_getElem?_getD, List.getElem?_eq_getElem hdl]
    rfl
  unfold b58map
  rw [hget, List.indexOf_getElem hnodup d hdl]
  simp [hd]

/-- Alphabet characters are alphabet members. -/
theorem getD_mem_alpha (d : Nat) (hd : d < 58) :
    B58ALPHA.getD d 0 ∈ B58ALPHA := by
  have hdl : d < B58ALPHA.length := by
    have : B58ALPHA.length = 58 := by decide
    omega
  rw [List.getD_eq_getElem?_getD, List.getElem?_eq_getElem hdl]
  exact List.getElem_mem hdl

/-- Big-endian Horner evaluation over the reversed digit list recovers
`ofDigits`. -/
theorem foldl_horner_eq_ofDigits (L : List Nat) :
    L.reverse.foldl (fun a d => 58 * a + d) 0 = Nat.ofDigits 58 L := by
  induction L with
  | nil => rfl
  | cons d L ih =>
    rw [List.reverse_cons, List.foldl_append, ih, Nat.ofDigits_cons]
    show 58 * Nat.ofDigits 58 L + d = _
    ring

set_option exponentiation.threshold 10000 in
/-- Size bound of the conversion buffer: `58 ^ L ≤ 256 ^ size` whenever
`L` is at most the input length. -/
theorem pow58_le_pow256 (L S : Nat) (h : L ≤ S) :
    58 ^ L ≤ 256 ^ ((S * 733 + 999) / 1000 + 1) := by
  have hkey : (58 : Nat) ^ 1000 ≤ 256 ^ 733 := by
    set_option exponentiation.threshold 10000 in
    set_option maxRecDepth 10000 in
    norm_num
  have h1000 : 733 * L ≤ 1000 * ((S * 733 + 999) / 1000 + 1) := by
    omega
  refine (Nat.pow_le_pow_iff_left (show (1000 : Nat) ≠ 0 by omega)).mp ?_
  rw [← pow_mul, ← pow_mul]
  calc 58 ^ (L * 1000) = (58 ^ 1000) ^ L := by rw [← pow_mul, Nat.mul_comm]
    _ ≤ (256 ^ 733) ^ L := Nat.pow_le_pow_left hkey L
    _ = 256 ^ (733 * L) := by rw [← pow_mul, Nat.mul_comm]
    _ ≤ 256 ^ (1000 * ((S * 733 + 999) / 1000 + 1)) :=
        Nat.pow_le_pow_right (by omega) h1000
    _ = 256 ^ (((S * 733 + 999) / 1000 + 1) * 1000) := by rw [Nat.mul_comm]

theorem drop_replicate_append (k a : Nat) (l : List Nat) :
    (List.replicate k a ++ l).drop k = l := by
  induction k with
  | zero => simp
  | succ k ih => simp [List.replicate_succ, ih]

/-- **C6**: decoding the Base58 encoding of any byte sequence returns
the original sequence: `base58Decode (base58Encode b) = some b`. -/
theorem x402_c6_base58_roundtrip (b : List Nat) (hb : ∀ x ∈ b, x < 256) :
    base58Decode (base58Encode b) = some b := by
  unfold base58Decode base58Encode
  dsimp only
  set z := countLeading 0 b with hz
  set n := valueBE b with hn
  set ds := (Nat.digits 58 n).reverse.map (fun d => B58ALPHA.getD d 0)
    with hdsdef
  set s := List.replicate z 49 ++ ds with hsdef
  set size := (s.length * 733 + 999) / 1000 + 1 with hsizedef
  have hdigs : ∀ d ∈ (Nat.digits 58 n).reverse, d < 58 := fun d hd =>
    Nat.digits_lt_base (by omega) (List.mem_reverse.mp hd)
  have hds_alpha : ∀ c ∈ ds, c ∈ B58ALPHA := by
    intro c hc
    rcases List.mem_map.mp hc with ⟨d, hd, rfl⟩
    exact getD_mem_alpha d (hdigs d hd)
  have hcds : countLeading 49 ds = 0 := by
    rcases hL : (Nat.digits 58 n).reverse with _ | ⟨d0, L'⟩
    · rw [hdsdef, hL]
      rfl
    · have hne : Nat.digits 58 n ≠ [] := by
        intro hcon
        rw [hcon] at hL
        cases hL
      have hd0 : d0 ≠ 0 := by
        have hlast := Nat.getLast_digit_ne_zero 58
          (Nat.digits_ne_nil_iff_ne_zero.mp hne)
        have h1 : (Nat.digits 58 n).reverse.head? = (Nat.digits 58 n).getLast? :=
          List.head?_reverse _
        rw [hL, List.getLast?_eq_getLast _ hne] at h1
        cases h1 with | refl => exact hlast
      have hd058 : d0 < 58 := hdigs d0 (by rw [hL]; exact List.mem_cons_self _ _)
      have hc49 : B58ALPHA.getD d0 0 ≠ 49 := by
        intro hcon
        have hinv := b58map_getD d0 hd058
        rw [hcon] at hinv
        have h49 : b58map 49 = 0 := by decide
        rw [h49] at hinv
        exact hd0 hinv.symm
      rw [hdsdef, hL, List.map_cons]
      show (if B58ALPHA.getD d0 0 = 49 then
        countLeading 49 (L'.map fun d => B58ALPHA.getD d 0) + 1 else 0) = 0
      rw [if_neg hc49]
  have hA : countLeading 49 s = z := by
    rw [hsdef, countLeading_replicate_append, hcds]
    omega
  have hB : s.drop z = ds := by
    rw [hsdef]
    exact drop_replicate_append z 49 ds
  obtain ⟨out, hout, hlen, hltout, hmod⟩ :=
    decodeLoop_spec ds (List.replicate size 0) hds_alpha
      (fun x hx => by rw [List.eq_of_mem_replicate hx]; omega)
  have hfold : ds.foldl (fun a c => 58 * a + b58map c)
      (valueBE (List.replicate size 0)) = n := by
    have h0 : valueBE (List.replicate size 0) = 0 := by
      unfold valueBE
      rw [List.reverse_replicate, valueLE_replicate_zero]
    rw [h0, hdsdef, List.foldl_map]
    have hcongr : (Nat.digits 58 n).reverse.foldl
        (fun x d => 58 * x + b58map (B58ALPHA.getD d 0)) 0 =
        (Nat.digits 58 n).reverse.foldl (fun x d => 58 * x + d) 0 :=
      List.foldl_ext _ _ 0 fun a d hd => by rw [b58map_getD d (hdigs d hd)]
    rw [hcongr, foldl_horner_eq_ofDigits, Nat.ofDigits_digits]
  have hdslen : (Nat.digits 58 n).length = ds.length := by
    rw [hdsdef, List.length_map, List.length_reverse]
  have hn_lt : n < 256 ^ size := by
    have h1 : n < 58 ^ (Nat.digits 58 n).length :=
      Nat.lt_base_pow_length_digits (by omega)
    have h3 : ds.length ≤ s.length := by
      rw [hsdef, List.length_append]
      omega
    have h4 := pow58_le_pow256 ds.length s.length h3
    rw [hdslen] at h1
    rw [hsizedef]
    omega
  have hout_lt : valueBE out < 256 ^ size := by
    have h1 : valueLE out.reverse < 256 ^ out.reverse.length :=
      valueLE_lt out.reverse fun x hx => hltout x (List.mem_reverse.mp hx)
    have h2 : out.reverse.length = size := by
      rw [List.length_reverse, hlen, List.length_replicate]
    rw [h2] at h1
    exact h1
  have hveq : valueBE out = n := by
    rw [hfold, List.length_replicate] at hmod
    have hmm := hmod
    unfold Nat.ModEq at hmm
    rwa [Nat.mod_eq_of_lt hout_lt, Nat.mod_eq_of_lt hn_lt] at hmm
  have hstrip_out : out.drop (countLeading 0 out) =
      (Nat.digits 256 n).reverse := by
    rw [drop_countLeading_eq_digits out hltout, hveq]
  have hstrip_b : b.drop (countLeading 0 b) = (Nat.digits 256 n).reverse := by
    rw [drop_countLeading_eq_digits b hb, hn]
  have hbsplit : b = List.replicate z 0 ++ (Nat.digits 256 n).reverse := by
    conv_lhs => rw [← List.take_append_drop z b]
    rw [hz]
    rw [take_countLeading_eq_replicate, hstrip_b]
  rw [hA, hB, hout]
  show some (List.replicate z 0 ++ out.drop (countLeading 0 out)) = some b
  rw [hstrip_out, ← hbsplit]

/-- Witness for C6: round-trip at the concrete byte sequence
`[0, 255, 7, 0]`. -/
theorem x402_c6_base58_roundtrip_witness :
    (∀ x ∈ [0, 255, 7, 0], x < 256) ∧
      base58Decode (base58Encode [0, 255, 7, 0]) = some [0, 255, 7, 0] :=
  ⟨by decide, x402_c6_base58_roundtrip [0, 255, 7, 0] (by decide)⟩
